import Mathlib

set_option maxRecDepth 8192

/-!
Shallow embedding of the TaskCreationHelper C++ helper headers
(`AzadLibrary/resources/helpers/tchio.hpp`, `tchrand.hpp`) and proofs about
the natural-language specification of this library.

Modelling conventions:
* The C++ text streams exchange whitespace-delimited tokens.  A token is
  modelled semantically: a numeral token carries the integer it denotes, any
  other token carries its text.  `operator>>` extraction together with the
  stream's fail state is modelled explicitly (after a failed extraction every
  further extraction fails without consuming input, and since C++11 a failed
  numeric extraction stores 0, clamping out-of-range fields to the limit).
* `std::string` is a sequence of 8-bit `char`s; on the library's target
  platform (Linux x86-64) `char` is signed, so a byte `c` converted to `int`
  yields its signed value, and `(char)n` truncates `n` modulo 256.  Strings
  are modelled as `List (Fin 256)` (byte values), with explicit signed-value
  conversions.
* Machine integers are modelled as `ℤ` (or `ℕ` for `size_t`) with the
  overflow behaviour of the extraction operators made explicit.
-/

namespace TCH

/-- Whitespace-delimited token of the wire format: a numeral token carrying
the integer value it denotes, or any other word carrying its text. -/
inductive Token where
  | num  : ℤ → Token
  | word : String → Token
deriving DecidableEq, Repr

/-- Text of a token, as `operator>>` into a `std::string` would read it. -/
def Token.text : Token → String
  | .num n => toString n
  | .word s => s

/-- Input stream state: the remaining tokens and the stream's fail flag
(`failbit`).  Once the fail flag is set, every extraction fails without
consuming input. -/
structure IStream where
  toks : List Token
  fail : Bool
deriving DecidableEq, Repr

/-- Extraction of one whitespace-delimited word into a `std::string`
(`in >> msg`).  On an empty or failed stream the string is left empty and
the fail flag is set; otherwise the next token's text is consumed. -/
def readWord (s : IStream) : String × IStream :=
  if s.fail then ("", s)
  else
    match s.toks with
    | [] => ("", ⟨[], true⟩)
    | t :: rest => (t.text, ⟨rest, false⟩)

/-- Extraction of a signed integer (`in >> value` for an integral type with
range `[lo, hi]`).  Models C++11 `num_get`: on an empty or failed stream, or
a non-numeric token, the value is 0 and the fail flag is set (a non-numeric
token is not consumed); an out-of-range field is consumed, the value is
clamped to the nearest limit and the fail flag is set. -/
def readInt (lo hi : ℤ) (s : IStream) : ℤ × IStream :=
  if s.fail then (0, s)
  else
    match s.toks with
    | [] => (0, ⟨[], true⟩)
    | .word w :: rest => (0, ⟨.word w :: rest, true⟩)
    | .num n :: rest =>
        if n < lo then (lo, ⟨rest, true⟩)
        else if hi < n then (hi, ⟨rest, true⟩)
        else (n, ⟨rest, false⟩)

/-- Extraction of a `size_t` (`in >> value` for an unsigned 64-bit type).
Models C++11 `num_get`/`strtoull`: a numeral field whose magnitude fits in
64 bits is reduced modulo `2^64` (so a negative field like `-1` silently
wraps to `2^64 - 1`); a field whose magnitude overflows stores the maximum
and sets the fail flag. -/
def readSize (s : IStream) : ℕ × IStream :=
  if s.fail then (0, s)
  else
    match s.toks with
    | [] => (0, ⟨[], true⟩)
    | .word w :: rest => (0, ⟨.word w :: rest, true⟩)
    | .num n :: rest =>
        if (2 ^ 64 - 1 : ℤ) < n.natAbs then (2 ^ 64 - 1, ⟨rest, true⟩)
        else ((n.emod (2 ^ 64)).toNat, ⟨rest, false⟩)

/-- Value range of `long long` (the 64-bit signed integral element type). -/
def i64Min : ℤ := -(2 ^ 63)

/-- Upper limit of `long long`. -/
def i64Max : ℤ := 2 ^ 63 - 1

/-- Value range of `int` (32-bit), used for character-code tokens. -/
def i32Min : ℤ := -(2 ^ 31)

/-- Upper limit of `int`. -/
def i32Max : ℤ := 2 ^ 31 - 1

/-- Signed value of a byte: `(int)c` for a `char c` on a signed-`char`
platform. -/
def scharVal (c : Fin 256) : ℤ :=
  if (c : ℕ) < 128 then (c : ℕ) else (c : ℕ) - 256

/-- Byte obtained by `(char)n` from an `int n`: truncation modulo 256. -/
def charOfInt (n : ℤ) : Fin 256 :=
  ⟨(n.emod 256).toNat, by
    have h : n.emod 256 < 256 := Int.emod_lt_of_pos n (by norm_num)
    have h0 : 0 ≤ n.emod 256 := Int.emod_nonneg n (by norm_num)
    omega⟩

/-- `Data<long long, 0>::get`: reads one integer token.  The generic
primitive `get` contains no throw statement, hence the result is always
`.ok`; extraction failure only sets the stream's fail flag and yields a
default value. -/
def dataGetI64 (s : IStream) : Except String (ℤ × IStream) :=
  .ok (readInt i64Min i64Max s)

/-- `Data<int, 0>::get` (used for character-code tokens of strings). -/
def dataGetI32 (s : IStream) : Except String (ℤ × IStream) :=
  .ok (readInt i32Min i32Max s)

/-- `Data<size_t, 0>::get` (used for array sizes and string lengths). -/
def dataGetSize (s : IStream) : Except String (ℕ × IStream) :=
  .ok (readSize s)

/-- `Data<t, 0>::put` for an integral value: `out << data << sep`, emitting
one numeral token. -/
def dataPutInt (n : ℤ) : List Token := [.num n]

/-- `Data<size_t, 0>::put` for a size value. -/
def dataPutSize (n : ℕ) : List Token := [.num (n : ℤ)]

/-- `Data<bool, 0>::get`: reads one word and requires it to be the literal
`true` or `false`, otherwise throws `std::runtime_error` — the only throw
statement among the primitive getters. -/
def dataGetBool (s : IStream) : Except String (Bool × IStream) :=
  let (msg, s1) := readWord s
  if msg = "true" then .ok (true, s1)
  else if msg = "false" then .ok (false, s1)
  else .error "Boolean parsing failed"

/-- `Data<bool, 0>::put`: emits the literal `true` or `false`. -/
def dataPutBool (b : Bool) : List Token := [.word (if b then "true" else "false")]

/-- Character-reading loop of `Data<std::string, 0>::get`:
`while(size--) result += (char)Data<int, 0>::get(in);`. -/
def readChars : ℕ → IStream → List (Fin 256) × IStream
  | 0, s => ([], s)
  | k + 1, s =>
      let (n, s1) := readInt i32Min i32Max s
      let (cs, s2) := readChars k s1
      (charOfInt n :: cs, s2)

/-- `Data<std::string, 0>::get`: reads a length token, then that many
character-code tokens, each truncated to a `char` modulo 256.  No range
check is performed and no throw statement exists on this path. -/
def dataGetStr (s : IStream) : Except String (List (Fin 256) × IStream) :=
  let (size, s1) := readSize s
  .ok (readChars size s1)

/-- `Data<std::string, 0>::put`: writes the length, then one integer token
`(int)c` per character — the signed value of each byte, never raw text. -/
def dataPutStr (str : List (Fin 256)) : List Token :=
  .num (str.length : ℤ) :: str.map (fun c => .num (scharVal c))

/-- `TCH::validateRectangle`: returns false iff some row `r ≥ 1` has a
length different from row 0. -/
def validateRectangle {α : Type} (val : List (List α)) : Bool :=
  match val with
  | [] => true
  | v0 :: rest => rest.all (fun v => v.length == v0.length)

/-- Element-reading loop of `Data<t, dimension>::get`:
`while(size--) result.push_back(Data<t, dimension-1>::get(in));` — reads
exactly `size` sub-values in order, propagating any thrown error. -/
def dataGetN {α : Type} (g : IStream → Except String (α × IStream)) :
    ℕ → IStream → Except String (List α × IStream)
  | 0, s => .ok ([], s)
  | k + 1, s => do
      let (x, s1) ← g s
      let (xs, s2) ← dataGetN g k s1
      .ok (x :: xs, s2)

/-- `Data<t, dimension>::get` for `dimension ≥ 1`: reads a `size_t` size
token, then exactly `size` sub-values of the previous dimension. -/
def dataGetArr {α : Type} (g : IStream → Except String (α × IStream))
    (s : IStream) : Except String (List α × IStream) :=
  let (size, s1) := readSize s
  dataGetN g size s1

/-- `Data<t, dimension>::put` for `dimension ≥ 1`: writes the size, then
each element's encoding in order. -/
def dataPutArr {α : Type} (p : α → List Token) (l : List α) : List Token :=
  .num (l.length : ℤ) :: (l.map p).flatten

/-- Native value of a `dimension`-fold nested `std::vector` over element
type `α`: `Vec α 0 = α` and `Vec α (d+1) = List (Vec α d)`. -/
abbrev Vec (α : Type) : ℕ → Type
  | 0 => α
  | d + 1 => List (Vec α d)

/-- `Data<t, d>::get` as a tower over a primitive getter `g`: dimension 0
delegates to the primitive codec, dimension `d+1` is the array codec over
dimension `d`. -/
def dataGetDim {α : Type} (g : IStream → Except String (α × IStream)) :
    (d : ℕ) → IStream → Except String (Vec α d × IStream)
  | 0 => g
  | d + 1 => dataGetArr (dataGetDim g d)

/-- `Data<t, d>::put` as a tower over a primitive putter `p`. -/
def dataPutDim {α : Type} (p : α → List Token) :
    (d : ℕ) → Vec α d → List Token
  | 0 => p
  | d + 1 => fun l => dataPutArr (dataPutDim p d) l

/-- Round-trip contract of a primitive codec on values satisfying `P`:
decoding directly after encoding yields the value back and consumes exactly
the encoding. -/
def ScalarRT {α : Type} (P : α → Prop) (p : α → List Token)
    (g : IStream → Except String (α × IStream)) : Prop :=
  ∀ x rest, P x → g ⟨p x ++ rest, false⟩ = .ok (x, ⟨rest, false⟩)

/-- Well-formedness of a dimension-`d` value: every scalar satisfies `P` and
every nesting level fits in a `size_t` (as any `std::vector` does). -/
def TreeOk {α : Type} (P : α → Prop) : (d : ℕ) → Vec α d → Prop
  | 0 => P
  | d + 1 => fun l => l.length < 2 ^ 64 ∧ ∀ x ∈ l, TreeOk P d x

/-- The string holding every byte value 0–255 once, in order. -/
def allBytes : List (Fin 256) := List.finRange 256

/-- Modelled from the C++ standard library: `out << data` for a `double`
with the default stream precision prints 6 significant decimal digits, so
the printed token denotes a value `v` that is an integer multiple of
`10 ^ (p - 6)` within half such a unit of the exact value `q`, where
`10 ^ (p - 1) ≤ |q| < 10 ^ p`.  The relation leaves the tie-breaking rule
open; every actual print is contained in it. -/
def Format6 (q v : ℚ) : Prop :=
  (q = 0 ∧ v = 0) ∨
  (q ≠ 0 ∧ ∃ p n : ℤ, (10 : ℚ) ^ (p - 1) ≤ |q| ∧ |q| < 10 ^ p ∧
    v = n * 10 ^ (p - 6) ∧ |v - q| ≤ 10 ^ (p - 6) / 2)

/-- Exact values representable as an IEEE binary64 (`double`): an integer
mantissa below `2^53` scaled by a power of two in the binary64 exponent
range. -/
def IsB64 (d : ℚ) : Prop :=
  ∃ m e : ℤ, |m| < 2 ^ 53 ∧ -1074 ≤ e ∧ e ≤ 971 ∧ d = m * 2 ^ e

/-- Modelled from the C++ standard library: `in >> value` for a `double`
converts the decimal field of value `t` to a nearest representable
binary64. -/
def ParseB64 (t d : ℚ) : Prop :=
  IsB64 d ∧ ∀ d', IsB64 d' → |d - t| ≤ |d' - t|

/-- Composite round trip for a `double` value `x`: the emitted token denotes
some `t` with `Format6 x t`, and decoding that token yields a nearest
binary64 `d` to `t`. -/
def RealTokenRT (x d : ℚ) : Prop :=
  ∃ t, Format6 x t ∧ ParseB64 t d

/-- Foreign-representation bundle of one `Data<t, d>` instantiation:
the foreign type (`thisCType`), `convert_cpp_c`, `convert_c_cpp`, and the
value `NULL` converts to in that type (the sentinel a parent level stores
after the last element). -/
structure CRep (α : Type) where
  Cty : Type
  deq : DecidableEq Cty
  conv : α → Cty
  back : Cty → α
  sentinel : Cty

/-- `Data<t, 0>` foreign conversion for an arithmetic or boolean `t`:
`convert_cpp_c` and `convert_c_cpp` both return the value unchanged; `NULL`
converts to the zero value `z` of `t`. -/
def primRep (α : Type) [DecidableEq α] (z : α) : CRep α :=
  { Cty := α, deq := inferInstance, conv := id, back := id, sentinel := z }

/-- `Data<std::string, 0>` foreign conversion: `convert_cpp_c` allocates a
buffer holding the string's bytes followed by a 0 terminator (a `char*`,
modelled as `Option` of the buffer contents so that the `NULL` pointer is a
distinct value); `convert_c_cpp` is `std::string(char*)`, reading bytes up
to the first 0.  Applying it to `NULL` is undefined behaviour in C++ and
unreachable from the array walk; the model returns the empty string
there. -/
def strRep : CRep (List (Fin 256)) :=
  { Cty := Option (List (Fin 256))
    deq := inferInstance
    conv := fun s => some (s ++ [0])
    back := fun o =>
      match o with
      | some b => b.takeWhile (fun c => c != (0 : Fin 256))
      | none => []
    sentinel := none }

/-- `Data<t, d+1>` foreign conversion over the element bundle `E`:
`convert_cpp_c` allocates a buffer of the elements' foreign values followed
by `NULL` (the source text's new-expression has a stray `*` that would make
a direct instantiation ill-formed; the evidently intended allocation of
`size + 1` slots of the element foreign type is modelled); `convert_c_cpp`
walks `data[i] != NULL` and reconverts each element. -/
def arrRep {α : Type} (E : CRep α) : CRep (List α) :=
  letI : DecidableEq E.Cty := E.deq
  { Cty := Option (List E.Cty)
    deq := inferInstance
    conv := fun xs => some ((xs.map E.conv) ++ [E.sentinel])
    back := fun o =>
      match o with
      | some bs => (bs.takeWhile (fun y => y != E.sentinel)).map E.back
      | none => []
    sentinel := none }

/-- Scalar element kinds supported by the codec. -/
inductive SKind where
  | int
  | real
  | bool
  | str
deriving DecidableEq

/-- Native C++ type of each scalar kind: `long long`, `double` (carried as
its exact rational value — the converter only copies it), `bool`,
`std::string`. -/
abbrev ScalarTy : SKind → Type
  | .int => ℤ
  | .real => ℚ
  | .bool => Bool
  | .str => List (Fin 256)

/-- Foreign bundle for each scalar kind at dimension 0. -/
def scalarRep : (k : SKind) → CRep (ScalarTy k)
  | .int => primRep ℤ 0
  | .real => primRep ℚ 0
  | .bool => primRep Bool false
  | .str => strRep

/-- Foreign bundle of `Data<t, d>` for scalar kind `k`. -/
def foreignRep (k : SKind) : (d : ℕ) → CRep (Vec (ScalarTy k) d)
  | 0 => scalarRep k
  | d + 1 => arrRep (foreignRep k d)

/-- Scalar values whose foreign representation is lossless: any arithmetic
or boolean value, and any string with no NUL byte. -/
def scalarGood : (k : SKind) → ScalarTy k → Prop
  | .int => fun _ => True
  | .real => fun _ => True
  | .bool => fun _ => True
  | .str => fun s => (0 : Fin 256) ∉ s

/-- Values that survive the foreign round trip: every scalar is good, and
no element's foreign value collides with the sentinel its parent level
stores (`0` for integral or real elements, `false` for boolean elements;
pointer-valued elements never collide). -/
def ForeignGood (k : SKind) : (d : ℕ) → Vec (ScalarTy k) d → Prop
  | 0 => scalarGood k
  | d + 1 => fun l => ∀ x ∈ l,
      ForeignGood k d x ∧ (foreignRep k d).conv x ≠ (foreignRep k d).sentinel

/-- Join loop of `TCH::seed`: append every argument followed by a `|`
delimiter, then `pop_back` the final delimiter. -/
def joinGenscript (genscript : List String) : String :=
  (genscript.foldl (fun acc arg => acc ++ arg ++ "|") "").dropRight 1

/-- Modelled from `<random>`: `std::mt19937_64` (state type `σ`) seeded via
a `std::seed_seq` built over the joined script bytes, and
`std::uniform_int_distribution` applied to the engine, are deterministic
standard-library components; their internals are outside this repository
and are represented by an arbitrary deterministic model. -/
structure PRNGModel (σ : Type) where
  init : String → σ
  uniformInt : ℤ → ℤ → σ → ℤ × σ

/-- Contract of `std::uniform_int_distribution`: on a non-empty range
`[l, r]` the sampled value lies in `[l, r]`. -/
def UniformIntSpec {σ : Type} (M : PRNGModel σ) : Prop :=
  ∀ l r s, l ≤ r → l ≤ (M.uniformInt l r s).1 ∧ (M.uniformInt l r s).1 ≤ r

/-- `TCH::seed`: throws on an empty genscript, otherwise joins the tokens
with `|` and initialises the engine from the joined byte sequence. -/
def seed {σ : Type} (M : PRNGModel σ) (genscript : List String) : Except String σ :=
  if genscript = [] then .error "Empty genscript given"
  else .ok (M.init (joinGenscript genscript))

/-- `TCH::randint`: samples `uniform_int_distribution(l, r)` on the
engine. -/
def randint {σ : Type} (M : PRNGModel σ) (l r : ℤ) (st : σ) : ℤ × σ :=
  M.uniformInt l r st

/-- Sequence of `n` successive `randint(l, r)` calls from state `st`. -/
def sampleSeq {σ : Type} (M : PRNGModel σ) (l r : ℤ) : ℕ → σ → List ℤ
  | 0, _ => []
  | n + 1, st =>
      let (v, st') := randint M l r st
      v :: sampleSeq M l r n st'

/-- A concrete deterministic engine model used to instantiate theorems. -/
def demoPRNG : PRNGModel ℕ :=
  { init := String.length, uniformInt := fun l _ s => (l, s + 1) }

/-- `std::swap(result[i1], result[i2])` on a vector modelled as a list. -/
def swapL (l : List ℤ) (i j : ℕ) : List ℤ :=
  (l.set i (l.getD j 0)).set j (l.getD i 0)

/-- Fisher–Yates loop of `TCH::generatePermutation`: for each `i1` in the
given (descending) index list, draw `i2 = randint(0, i1)` and swap entries
`i1` and `i2` when they differ. -/
def fyLoop {σ : Type} (M : PRNGModel σ) : List ℕ → List ℤ → σ → List ℤ × σ
  | [], l, st => (l, st)
  | i1 :: rest, l, st =>
      let (i2, st') := M.uniformInt 0 (i1 : ℤ) st
      let l' := if (i1 : ℤ) ≠ i2 then swapL l i1 i2.toNat else l
      fyLoop M rest l' st'

/-- `TCH::generatePermutation`: throws on a non-positive size, otherwise
starts from the identity vector `[0, …, size-1]` and runs the downward
Fisher–Yates loop `i1 = size-1, …, 0`. -/
def generatePermutation {σ : Type} (M : PRNGModel σ) (size : ℤ) (st : σ) :
    Except String (List ℤ × σ) :=
  if size ≤ 0 then .error "Non-positive size given"
  else .ok (fyLoop M (List.range size.toNat).reverse
    ((List.range size.toNat).map Int.ofNat) st)

/-- Index function of a permutation vector: `perm[i]` as an array index
(`begin + perm[it - begin]` in the source, with iterators modelled as
indices into the range). -/
def pIdx (perm : List ℤ) (i : ℕ) : ℕ := (perm.getD i 0).toNat

/-- Orbit of an index under repeated application of the permutation's
index function: the cycle of `x0` visited by the walk. -/
def orbitPt (perm : List ℤ) (x0 i : ℕ) : ℕ := (pIdx perm)^[i] x0

/-- Inner while-loop of `TCH::shuffle`: starting from `itprev` with
`itafter = perm[itprev]`, while `itafter` has not come back to the cycle
head `x0`, mark `itprev` moved, swap the two entries and advance both along
the permutation; on exit mark the last `itprev` moved.  The C++ loop
terminates because following a permutation returns to the cycle head; the
structural `fuel` argument (instantiated with the range size, which the
termination proof shows is never exhausted) makes the recursion
well-founded. -/
def cwalk (perm : List ℤ) (x0 : ℕ) :
    ℕ → ℕ → ℕ → List ℤ → List Bool → List ℤ × List Bool
  | fuel, itprev, itafter, arr, moved =>
    if itafter = x0 then (arr, moved.set itprev true)
    else
      match fuel with
      | 0 => (arr, moved)
      | f + 1 =>
          cwalk perm x0 f itafter (pIdx perm itafter)
            (swapL arr itprev itafter) (moved.set itprev true)

/-- Outer for-loop of `TCH::shuffle`: walk each index of the range in
order, skipping indices already moved, and apply the cycle walk at each
unmoved index. -/
def applyPermLoop (perm : List ℤ) (n : ℕ) :
    List ℕ → List ℤ → List Bool → List ℤ × List Bool
  | [], arr, moved => (arr, moved)
  | x :: xs, arr, moved =>
      if moved.getD x false then applyPermLoop perm n xs arr moved
      else
        let (arr', moved') := cwalk perm x n x (pIdx perm x) arr moved
        applyPermLoop perm n xs arr' moved'

/-- In-place application step of `TCH::shuffle` on the range contents:
`arr[x] := arr[perm[x]]` realised by walking every permutation cycle
once (`moved` initially all false). -/
def applyPerm (perm : List ℤ) (l : List ℤ) : List ℤ :=
  (applyPermLoop perm l.length (List.range l.length) l
    (List.replicate l.length false)).1

/-- `TCH::shuffle(begin, end)`: iterators are modelled as indices `b`, `e`
into an ambient list.  `std::distance` is `e - b`; a negative distance
throws, a zero distance returns unchanged; otherwise a random permutation
of the range's index set is generated and applied in place by cycle
walking.  All iterator accesses `it - begin` land inside `[b, e)`, so the
walk is carried out on the extracted range contents and spliced back. -/
def shuffle {σ : Type} (M : PRNGModel σ) (arr : List ℤ) (b e : ℕ) (st : σ) :
    Except String (List ℤ × σ) :=
  if ((e : ℤ) - (b : ℤ)) < 0 then .error "End iterator is at before begin iterator"
  else if ((e : ℤ) - (b : ℤ)) = 0 then .ok (arr, st)
  else
    match generatePermutation M ((e : ℤ) - (b : ℤ)) st with
    | .error msg => .error msg
    | .ok (perm, st') =>
        .ok (arr.take b ++ applyPerm perm ((arr.drop b).take (e - b)) ++ arr.drop e, st')

end TCH

namespace TCH

theorem readInt_num {lo hi n : ℤ} (rest : List Token) (h1 : lo ≤ n) (h2 : n ≤ hi) :
    readInt lo hi ⟨.num n :: rest, false⟩ = (n, ⟨rest, false⟩) := by
  simp [readInt, not_lt.2 h1, not_lt.2 h2]

theorem readSize_num {n : ℕ} (rest : List Token) (h : n < 2 ^ 64) :
    readSize ⟨.num (n : ℤ) :: rest, false⟩ = (n, ⟨rest, false⟩) := by
  have hmod : ((n : ℤ)).emod (2 ^ 64) = (n : ℤ) :=
    Int.emod_eq_of_lt (by positivity) (by exact_mod_cast h)
  simp only [readSize, Bool.false_eq_true, if_false, Int.natAbs_ofNat, hmod, Int.toNat_natCast]
  rw [if_neg (by push_cast; omega)]

theorem charOfInt_scharVal : ∀ c : Fin 256, charOfInt (scharVal c) = c := by decide

theorem scharVal_mem : ∀ c : Fin 256, -128 ≤ scharVal c ∧ scharVal c < 128 := by decide

theorem scalarRT_int64 : ScalarRT (fun x => i64Min ≤ x ∧ x ≤ i64Max) dataPutInt dataGetI64 := by
  intro x rest hx
  simp [dataGetI64, dataPutInt, readInt_num rest hx.1 hx.2]

theorem scalarRT_bool : ScalarRT (fun _ => True) dataPutBool dataGetBool := by
  intro x rest _
  cases x <;> simp [dataGetBool, dataPutBool, readWord, Token.text]

theorem readChars_map (str : List (Fin 256)) (rest : List Token) :
    readChars str.length ⟨(str.map (fun c => Token.num (scharVal c))) ++ rest, false⟩
      = (str, ⟨rest, false⟩) := by
  induction str with
  | nil => simp [readChars]
  | cons c cs ih =>
      have hc := scharVal_mem c
      have hget : readInt i32Min i32Max
          ⟨.num (scharVal c) :: (cs.map (fun c => Token.num (scharVal c)) ++ rest), false⟩
            = (scharVal c, ⟨cs.map (fun c => Token.num (scharVal c)) ++ rest, false⟩) := by
        refine readInt_num _ ?_ ?_
        · unfold i32Min; omega
        · unfold i32Max; omega
      simp only [List.map_cons, List.length_cons, List.cons_append, readChars, hget, ih,
        charOfInt_scharVal]

theorem scalarRT_str : ScalarRT (fun s => s.length < 2 ^ 64) dataPutStr dataGetStr := by
  intro str rest hlen
  have hsz : readSize ⟨.num (str.length : ℤ) ::
      (str.map (fun c => Token.num (scharVal c)) ++ rest), false⟩
        = (str.length, ⟨str.map (fun c => Token.num (scharVal c)) ++ rest, false⟩) :=
    readSize_num _ hlen
  simp only [dataGetStr, dataPutStr, List.cons_append, hsz, readChars_map]

theorem dataGetN_flatten {α : Type} {g : IStream → Except String (α × IStream)}
    {Q : α → Prop} {pp : α → List Token}
    (hg : ∀ x rest, Q x → g ⟨pp x ++ rest, false⟩ = .ok (x, ⟨rest, false⟩)) :
    ∀ (l : List α) (rest : List Token), (∀ x ∈ l, Q x) →
      dataGetN g l.length ⟨(l.map pp).flatten ++ rest, false⟩ = .ok (l, ⟨rest, false⟩) := by
  intro l
  induction l with
  | nil => intro rest _; simp [dataGetN]
  | cons x xs ih =>
      intro rest hq
      have h1 : g ⟨pp x ++ ((xs.map pp).flatten ++ rest), false⟩
          = .ok (x, ⟨(xs.map pp).flatten ++ rest, false⟩) := hg x _ (hq x (by simp))
      simp only [List.map_cons, List.flatten_cons, List.length_cons, List.append_assoc]
      simp only [dataGetN, h1, bind, Except.bind]
      rw [ih rest (fun y hy => hq y (by simp [hy]))]

theorem dataGetDim_rt {α : Type} {P : α → Prop} {p : α → List Token}
    {g : IStream → Except String (α × IStream)} (h : ScalarRT P p g) :
    ∀ (d : ℕ) (v : Vec α d) (rest : List Token), TreeOk P d v →
      dataGetDim g d ⟨dataPutDim p d v ++ rest, false⟩ = .ok (v, ⟨rest, false⟩) := by
  intro d
  induction d with
  | zero => intro v rest hv; exact h v rest hv
  | succ d ih =>
      intro v rest hv
      obtain ⟨hlen, helem⟩ := hv
      have hsz : readSize ⟨.num (v.length : ℤ) ::
          ((v.map (dataPutDim p d)).flatten ++ rest), false⟩
            = (v.length, ⟨(v.map (dataPutDim p d)).flatten ++ rest, false⟩) :=
        readSize_num _ hlen
      simp only [dataGetDim, dataPutDim, dataPutArr, dataGetArr, List.cons_append, hsz]
      exact dataGetN_flatten (fun x r hx => ih x r hx) v rest helem

/-- C9: `validateRectangle` returns true iff every inner sequence's length
equals the first inner sequence's length, vacuously true for 0 or 1 rows.
The function takes its argument by const reference and performs no writes,
and is modelled as a pure function. -/
theorem validateRectangle_iff_uniform_rows {α : Type} (val : List (List α)) :
    (validateRectangle val = true ↔ ∀ row ∈ val, row.length = (val.headD []).length)
    ∧ (val.length ≤ 1 → validateRectangle val = true) := by
  constructor
  · cases val with
    | nil => simp [validateRectangle]
    | cons v0 rest =>
        simp only [validateRectangle, List.all_eq_true, beq_iff_eq, List.headD_cons]
        constructor
        · intro h row hrow
          rcases List.mem_cons.1 hrow with h0 | hr
          · rw [h0]
          · exact h row hr
        · intro h row hrow
          exact h row (List.mem_cons_of_mem v0 hrow)
  · intro hlen
    match val with
    | [] => rfl
    | [v0] => rfl
    | v0 :: v1 :: rest => simp at hlen

/-- Witness for C9: a concrete rectangular two-level array validates. -/
theorem validateRectangle_witness :
    validateRectangle ([[1, 2], [3, 4], [5, 6]] : List (List ℤ)) = true :=
  (validateRectangle_iff_uniform_rows [[1, 2], [3, 4], [5, 6]]).1.2 (by decide)

/-- C5 counterexample: the claim that every emitted character-code token
lies in `[0, 255]` is false.  Encoding the one-byte string holding byte 200
emits the token `-56` (the signed `char` value of the byte), which is
negative. -/
theorem putStr_token_not_in_byte_range :
    dataPutStr [(200 : Fin 256)] = [Token.num 1, Token.num (-56)]
    ∧ ¬ ((0 : ℤ) ≤ -56) := by
  constructor
  · rfl
  · decide

/-- C5 amended: `Data<std::string,0>::put` writes the string's length as an
integer token followed by exactly one integer token per character — never
the raw text of the string — and every emitted character-code token is the
signed `char` value of the byte, lying in `[-128, 127]` (bytes at or above
128 emit negative tokens on the signed-`char` target platform). -/
theorem putStr_length_and_code_tokens (str : List (Fin 256)) :
    dataPutStr str
      = Token.num (str.length : ℤ) :: str.map (fun c => Token.num (scharVal c))
    ∧ (str.map (fun c => Token.num (scharVal c))).length = str.length
    ∧ ∀ c ∈ str, -128 ≤ scharVal c ∧ scharVal c ≤ 127 := by
  refine ⟨rfl, List.length_map _ _, ?_⟩
  intro c _
  have h := scharVal_mem c
  omega

/-- C3 counterexample: the claim that the primitive `get` fails with a
FormatError when the expected token is absent, or when a declared character
code falls outside `[0, 255]`, is false.  An integral `get` on an empty
stream returns 0 with only the fail flag set (no error is raised), and a
string `get` accepts the out-of-range character code 300, truncating it to
byte 44. -/
theorem primitive_get_missing_checks :
    dataGetI64 ⟨[], false⟩ = .ok (0, ⟨[], true⟩)
    ∧ dataGetStr ⟨[Token.num 1, Token.num 300], false⟩
        = .ok ([(44 : Fin 256)], ⟨[], false⟩) := by
  constructor
  · rfl
  · rfl

/-- C3 amended: among the primitive getters only the boolean one can fail,
and it fails exactly when the extracted word (empty on an absent token) is
neither `true` nor `false`; integral and string gets always return a value
(an absent integer token yields 0 with the fail flag set, and string
character codes are truncated modulo 256 with no `[0, 255]` range check);
on well-formed input each getter returns the parsed value. -/
theorem primitive_get_failure_characterization :
    (∀ s : IStream, ∃ v s', dataGetI64 s = .ok (v, s'))
    ∧ (∀ s : IStream, ∃ v s', dataGetStr s = .ok (v, s'))
    ∧ (∀ s : IStream, (∃ e, dataGetBool s = .error e)
        ↔ ((readWord s).1 ≠ "true" ∧ (readWord s).1 ≠ "false"))
    ∧ (∀ (b : Bool) (rest : List Token),
        dataGetBool ⟨dataPutBool b ++ rest, false⟩ = .ok (b, ⟨rest, false⟩))
    ∧ (∀ (n : ℤ) (rest : List Token), i64Min ≤ n → n ≤ i64Max →
        dataGetI64 ⟨Token.num n :: rest, false⟩ = .ok (n, ⟨rest, false⟩)) := by
  refine ⟨fun s => ⟨_, _, rfl⟩, fun s => ⟨_, _, rfl⟩, ?_, ?_, ?_⟩
  · intro s
    simp only [dataGetBool]
    rcases readWord s with ⟨msg, s1⟩
    by_cases h1 : msg = "true"
    · simp [h1]
    · by_cases h2 : msg = "false"
      · simp [h1, h2]
      · simp [h1, h2]
  · intro b rest
    cases b <;> simp [dataGetBool, dataPutBool, readWord, Token.text]
  · intro n rest h1 h2
    simp [dataGetI64, readInt_num rest h1 h2]

/-- Witness for the amended C3 theorem at a concrete well-formed input. -/
theorem primitive_get_failure_characterization_witness :
    dataGetI64 ⟨[Token.num 5], false⟩ = .ok (5, ⟨[], false⟩) :=
  primitive_get_failure_characterization.2.2.2.2 5 []
    (by norm_num [i64Min]) (by norm_num [i64Max])

theorem dataGetN_failedEmpty (n : ℕ) :
    dataGetN dataGetI64 n ⟨[], true⟩ = .ok (List.replicate n 0, ⟨[], true⟩) := by
  induction n with
  | zero => rfl
  | succ k ih =>
      simp [dataGetN, dataGetI64, readInt, ih, List.replicate_succ, bind, Except.bind]

/-- C4: evaluation of the array codec at a negative size token.  The size is
extracted as a `size_t`, so `-1` silently wraps to `2^64 - 1` and the code
attempts that many element reads — on the now-exhausted stream every read
yields the default value 0, producing a vector of `2^64 - 1` zeros with no
error raised, where the specification demands a FormatError.  The second
conjunct shows the intended positive-size path: a size token followed by
exactly that many elements, read in order. -/
theorem arrGet_negative_size_wraps :
    dataGetArr dataGetI64 ⟨[Token.num (-1)], false⟩
      = .ok (List.replicate (2 ^ 64 - 1) 0, ⟨[], true⟩)
    ∧ dataGetArr dataGetI64 ⟨[Token.num 2, Token.num 5, Token.num 7], false⟩
      = .ok ([5, 7], ⟨[], false⟩) := by
  constructor
  · have hsz : readSize ⟨[Token.num (-1)], false⟩ = ((2 ^ 64 - 2) + 1, ⟨[], false⟩) := by
      decide
    have key : ∀ k : ℕ, dataGetN dataGetI64 (k + 1) ⟨[], false⟩
        = .ok (0 :: List.replicate k 0, ⟨[], true⟩) := by
      intro k
      simp [dataGetN, dataGetI64, readInt, dataGetN_failedEmpty, bind, Except.bind]
    have hrep : List.replicate (2 ^ 64 - 1 : ℕ) (0 : ℤ)
        = 0 :: List.replicate (2 ^ 64 - 2) 0 := by
      rw [show (2 ^ 64 - 1 : ℕ) = (2 ^ 64 - 2) + 1 from by norm_num, List.replicate_succ]
    simp only [dataGetArr, hsz, key, hrep]
  · rfl

/-- C2 counterexample: with `real` (binary64) scalars, decoding the encoded
token stream need not reproduce the value: the default 6-significant-digit
stream output of the exactly representable double `123456789` denotes
`123457000`, and parsing that token yields `123457000`, not `123456789`. -/
theorem real_roundtrip_fails :
    ¬ (∀ x d : ℚ, RealTokenRT x d → d = x) := by
  intro h
  have h1 : RealTokenRT 123456789 123457000 := by
    refine ⟨123457000, ?_, ?_⟩
    · refine Or.inr ⟨by norm_num, 9, 123457, by norm_num, by norm_num, by norm_num, by norm_num⟩
    · refine ⟨⟨15432125, 3, by norm_num, by norm_num, by norm_num, by norm_num⟩, ?_⟩
      intro d' _
      have : |(123457000 : ℚ) - 123457000| = 0 := by norm_num
      rw [this]
      exact abs_nonneg _
  have := h _ _ h1
  norm_num at this

/-- C2 amended: the wire round-trip `get(put(v)) = v` holds for value trees
of every dimension over integer, boolean and string elements (integers
within the `long long` range, nesting sizes within `size_t`); the empty
string encodes as length 0 with zero following tokens, and the round trip
holds for the string containing every byte value 0–255.  For `real`
(binary64) elements the default 6-digit formatting loses precision, so the
round trip can fail there (see the counterexample). -/
theorem valueTree_roundtrip :
    (∀ (d : ℕ) (v : Vec ℤ d) (rest : List Token),
        TreeOk (fun x => i64Min ≤ x ∧ x ≤ i64Max) d v →
        dataGetDim dataGetI64 d ⟨dataPutDim dataPutInt d v ++ rest, false⟩
          = .ok (v, ⟨rest, false⟩))
    ∧ (∀ (d : ℕ) (v : Vec Bool d) (rest : List Token),
        TreeOk (fun _ => True) d v →
        dataGetDim dataGetBool d ⟨dataPutDim dataPutBool d v ++ rest, false⟩
          = .ok (v, ⟨rest, false⟩))
    ∧ (∀ (d : ℕ) (v : Vec (List (Fin 256)) d) (rest : List Token),
        TreeOk (fun s => s.length < 2 ^ 64) d v →
        dataGetDim dataGetStr d ⟨dataPutDim dataPutStr d v ++ rest, false⟩
          = .ok (v, ⟨rest, false⟩))
    ∧ dataPutStr [] = [Token.num 0]
    ∧ dataGetStr ⟨dataPutStr allBytes, false⟩ = .ok (allBytes, ⟨[], false⟩) := by
  refine ⟨dataGetDim_rt scalarRT_int64, dataGetDim_rt scalarRT_bool,
    dataGetDim_rt scalarRT_str, rfl, ?_⟩
  have h := scalarRT_str allBytes [] (by simp [allBytes])
  rwa [List.append_nil] at h

/-- Witness for the amended C2 theorem: a concrete dimension-1 integer tree
round-trips. -/
theorem valueTree_roundtrip_witness :
    dataGetDim dataGetI64 1 ⟨dataPutDim dataPutInt 1 ([5, 0, -3] : Vec ℤ 1) ++ [], false⟩
      = .ok (([5, 0, -3] : Vec ℤ 1), ⟨[], false⟩) :=
  valueTree_roundtrip.1 1 [5, 0, -3] []
    (by
      refine ⟨by norm_num, ?_⟩
      intro x hx
      simp only [List.mem_cons, List.not_mem_nil, or_false] at hx
      rcases hx with rfl | rfl | rfl <;> constructor <;> norm_num [i64Min, i64Max])

/-- C1 counterexample: the foreign round trip is not exact for every
representable value.  The string consisting of the single byte 0 converts
to a `char*` buffer whose first byte equals the terminator, so converting
back yields the empty string. -/
theorem foreign_roundtrip_fails :
    (foreignRep .str 0).back ((foreignRep .str 0).conv ([0] : List (Fin 256)))
      = ([] : List (Fin 256))
    ∧ ([] : List (Fin 256)) ≠ [0] := by
  constructor
  · rfl
  · decide

/-- C1 amended: `convert_c_cpp (convert_cpp_c v) = v` holds for every value
in which no string contains a NUL byte and no element of an array collides
with the sentinel its level stores (`0` for integer or real elements,
`false` for boolean elements; string and array elements are pointers and
never collide).  In particular it fails for strings containing NUL and for
integer arrays containing 0. -/
theorem foreign_roundtrip :
    ∀ (k : SKind) (d : ℕ) (v : Vec (ScalarTy k) d), ForeignGood k d v →
      (foreignRep k d).back ((foreignRep k d).conv v) = v := by
  intro k d
  induction d with
  | zero =>
      intro v hv
      cases k with
      | int => rfl
      | real => rfl
      | bool => rfl
      | str =>
          have hpos : ∀ c ∈ (v : List (Fin 256)), (c != (0 : Fin 256)) = true := by
            intro c hc
            have : c ≠ 0 := fun h => hv (h ▸ hc)
            simpa [bne_iff_ne] using this
          show List.takeWhile (fun c => c != (0 : Fin 256)) (v ++ [0]) = v
          rw [List.takeWhile_append_of_pos hpos]
          simp [List.takeWhile]
  | succ d ih =>
      intro v hv
      letI : DecidableEq (foreignRep k d).Cty := (foreignRep k d).deq
      show ((v.map (foreignRep k d).conv ++ [(foreignRep k d).sentinel]).takeWhile
          (fun y => y != (foreignRep k d).sentinel)).map (foreignRep k d).back = v
      have hpos : ∀ y ∈ v.map (foreignRep k d).conv,
          (y != (foreignRep k d).sentinel) = true := by
        intro y hy
        obtain ⟨x, hx, rfl⟩ := List.mem_map.1 hy
        have hne := (hv x hx).2
        simpa [bne_iff_ne] using hne
      rw [List.takeWhile_append_of_pos hpos]
      have hsent : List.takeWhile (fun y => y != (foreignRep k d).sentinel)
          [(foreignRep k d).sentinel] = [] := by
        simp [List.takeWhile]
      rw [hsent, List.append_nil, List.map_map]
      have : ∀ x ∈ v, ((foreignRep k d).back ∘ (foreignRep k d).conv) x = id x :=
        fun x hx => ih x (hv x hx).1
      rw [List.map_congr_left this, List.map_id]

/-- Witness for the amended C1 theorem: a dimension-1 integer array with no
zero element round-trips through the foreign representation. -/
theorem foreign_roundtrip_witness :
    (foreignRep .int 1).back ((foreignRep .int 1).conv ([1, 2] : Vec (ScalarTy .int) 1))
      = ([1, 2] : Vec (ScalarTy .int) 1) :=
  foreign_roundtrip .int 1 [1, 2]
    (by
      intro x hx
      refine ⟨trivial, ?_⟩
      simp only [List.mem_cons, List.not_mem_nil, or_false] at hx
      rcases hx with rfl | rfl
      · show (1 : ℤ) ≠ 0
        norm_num
      · show (2 : ℤ) ≠ 0
        norm_num)

theorem replace_perm : ∀ (t : List ℤ) (m : ℕ) (a : ℤ), m < t.length →
    (t.getD m 0 :: t.set m a).Perm (a :: t) := by
  intro t
  induction t with
  | nil => intro m a h; simp at h
  | cons b t' ih =>
      intro m a h
      cases m with
      | zero => simpa using List.Perm.swap a b t'
      | succ m' =>
          have h' : m' < t'.length := by simpa using h
          have e1 : (b :: t').getD (m' + 1) 0 :: (b :: t').set (m' + 1) a
              = t'.getD m' 0 :: b :: t'.set m' a := by simp
          rw [e1]
          have p1 : (t'.getD m' 0 :: b :: t'.set m' a).Perm
              (b :: (t'.getD m' 0 :: t'.set m' a)) := List.Perm.swap _ _ _
          have p2 : (b :: (t'.getD m' 0 :: t'.set m' a)).Perm (b :: (a :: t')) :=
            (ih m' a h').cons b
          have p3 : (b :: a :: t').Perm (a :: b :: t') := List.Perm.swap _ _ _
          exact (p1.trans p2).trans p3

theorem swapL_perm : ∀ (l : List ℤ) (i j : ℕ), i < l.length → j < l.length →
    (swapL l i j).Perm l := by
  intro l
  induction l with
  | nil => intro i j hi; simp at hi
  | cons a t ih =>
      intro i j hi hj
      cases i with
      | zero =>
          cases j with
          | zero => simp [swapL]
          | succ m =>
              have hm : m < t.length := by simpa using hj
              show ((( a :: t).set 0 ((a :: t).getD (m+1) 0)).set (m+1)
                ((a :: t).getD 0 0)).Perm (a :: t)
              simp only [List.getD_cons_succ, List.getD_cons_zero, List.set_cons_zero,
                List.set_cons_succ]
              exact replace_perm t m a hm
      | succ k =>
          cases j with
          | zero =>
              have hk : k < t.length := by simpa using hi
              show (((a :: t).set (k+1) ((a :: t).getD 0 0)).set 0
                ((a :: t).getD (k+1) 0)).Perm (a :: t)
              simp only [List.getD_cons_succ, List.getD_cons_zero, List.set_cons_zero,
                List.set_cons_succ]
              exact replace_perm t k a hk
          | succ m =>
              have hk : k < t.length := by simpa using hi
              have hm : m < t.length := by simpa using hj
              show (((a :: t).set (k+1) ((a :: t).getD (m+1) 0)).set (m+1)
                ((a :: t).getD (k+1) 0)).Perm (a :: t)
              simp only [List.getD_cons_succ, List.set_cons_succ]
              exact (ih k m hk hm).cons a

theorem swapL_length (l : List ℤ) (i j : ℕ) : (swapL l i j).length = l.length := by
  simp [swapL]

theorem fyLoop_perm {σ : Type} (M : PRNGModel σ) (hM : UniformIntSpec M) :
    ∀ (idxs : List ℕ) (l : List ℤ) (st : σ), (∀ i ∈ idxs, i < l.length) →
      ((fyLoop M idxs l st).1).Perm l := by
  intro idxs
  induction idxs with
  | nil => intro l st _; exact List.Perm.refl l
  | cons i1 rest ih =>
      intro l st hidx
      have hi1 : i1 < l.length := hidx i1 (by simp)
      obtain ⟨hlo, hhi⟩ := hM 0 (i1 : ℤ) st (by positivity)
      rcases hu : M.uniformInt 0 (i1 : ℤ) st with ⟨i2, st'⟩
      rw [hu] at hlo hhi
      simp only at hlo hhi
      have hi2 : i2.toNat < l.length := by omega
      set l' := if (i1 : ℤ) ≠ i2 then swapL l i1 i2.toNat else l with hl'
      have hperm : l'.Perm l := by
        rw [hl']
        split
        · exact swapL_perm l i1 i2.toNat hi1 hi2
        · exact List.Perm.refl l
      have hlen : l'.length = l.length := hperm.length_eq
      have hrest : ((fyLoop M rest l' st').1).Perm l' :=
        ih l' st' (fun i hi => by rw [hlen]; exact hidx i (by simp [hi]))
      have hstep : fyLoop M (i1 :: rest) l st = fyLoop M rest l' st' := by
        simp only [fyLoop, hu, hl']
      rw [hstep]
      exact hrest.trans hperm

/-- C6: seeding twice with identical non-empty scriptTokens always
produces the same engine state, hence identical subsequent sampling
sequences: the seed derivation depends only on the joined token bytes and
sampling consumes only the engine state — there is no other input. -/
theorem seed_determinism {σ : Type} (M : PRNGModel σ) (ts1 ts2 : List String)
    (heq : ts1 = ts2) (hne : ts1 ≠ []) (l r : ℤ) (n : ℕ) :
    (∃ st, seed M ts1 = .ok st)
    ∧ seed M ts1 = seed M ts2
    ∧ ∀ st1 st2, seed M ts1 = .ok st1 → seed M ts2 = .ok st2 →
        sampleSeq M l r n st1 = sampleSeq M l r n st2 := by
  subst heq
  refine ⟨⟨M.init (joinGenscript ts1), by simp [seed, hne]⟩, rfl, ?_⟩
  intro st1 st2 h1 h2
  rw [h1] at h2
  injection h2 with h
  rw [h]

/-- Witness for C6: the concrete seed `["5","3"]` with a concrete engine
model. -/
theorem seed_determinism_witness :
    ∃ st, seed demoPRNG ["5", "3"] = .ok st :=
  (seed_determinism demoPRNG ["5", "3"] ["5", "3"] rfl (by decide) 1 100 10).1

/-- C10: `seed` is not injective in its token list: the tokens are joined
with the `|` character, which may itself occur inside a token, so the
distinct lists `["a", "b"]` and `["a|b"]` produce the same joined byte
sequence, the same engine state, and identical subsequent sampling
sequences. -/
theorem seed_join_collision {σ : Type} (M : PRNGModel σ) (l r : ℤ) (n : ℕ) :
    (["a", "b"] : List String) ≠ ["a|b"]
    ∧ joinGenscript ["a", "b"] = joinGenscript ["a|b"]
    ∧ seed M ["a", "b"] = seed M ["a|b"]
    ∧ ∀ st1 st2, seed M ["a", "b"] = .ok st1 → seed M ["a|b"] = .ok st2 →
        sampleSeq M l r n st1 = sampleSeq M l r n st2 := by
  have hj : joinGenscript ["a", "b"] = joinGenscript ["a|b"] := by decide
  refine ⟨by decide, hj, by simp [seed, hj], ?_⟩
  intro st1 st2 h1 h2
  simp only [seed, if_neg (by decide : ¬ (["a", "b"] : List String) = []),
    if_neg (by decide : ¬ (["a|b"] : List String) = [])] at h1 h2
  injection h1 with h1'
  injection h2 with h2'
  rw [← h1', ← h2', hj]

/-- Witness for C10 at the concrete engine model: both seeds evaluate to
the same state. -/
theorem seed_join_collision_witness :
    sampleSeq demoPRNG 1 100 10 3 = sampleSeq demoPRNG 1 100 10 3 :=
  (seed_join_collision demoPRNG 1 100 10).2.2.2 3 3 rfl rfl

/-- C7: `generatePermutation` fails whenever the size is non-positive, and
on a positive size returns a permutation of `{0, …, size-1}` (the offset
parameter named by the specification does not exist in this code; the
function always behaves as at the default offset 0). -/
theorem generatePermutation_spec {σ : Type} (M : PRNGModel σ) (hM : UniformIntSpec M) :
    (∀ (size : ℤ) (st : σ), size ≤ 0 →
        generatePermutation M size st = .error "Non-positive size given")
    ∧ (∀ (size : ℤ) (st : σ) (perm : List ℤ) (st' : σ), 0 < size →
        generatePermutation M size st = .ok (perm, st') →
        perm.Perm ((List.range size.toNat).map Int.ofNat)) := by
  constructor
  · intro size st h
    simp [generatePermutation, h]
  · intro size st perm st' hpos h
    have hnot : ¬ size ≤ 0 := not_le.2 hpos
    simp only [generatePermutation, hnot, if_false] at h
    injection h with h'
    have hperm := fyLoop_perm M hM (List.range size.toNat).reverse
      ((List.range size.toNat).map Int.ofNat) st
      (fun i hi => by
        simp only [List.mem_reverse, List.mem_range] at hi
        rw [List.length_map, List.length_range]
        exact hi)
    rw [h'] at hperm
    exact hperm

/-- Witness for C7: a concrete size-3 run of the loop produces `[1, 2, 0]`,
a permutation of `{0, 1, 2}`. -/
theorem generatePermutation_spec_witness :
    ([1, 2, 0] : List ℤ).Perm ((List.range (3 : ℤ).toNat).map Int.ofNat) :=
  (generatePermutation_spec demoPRNG (fun l _ s h => ⟨le_refl l, h⟩)).2 3 0 [1, 2, 0] 3
    (by norm_num) rfl

theorem getD_set_same {α : Type} (l : List α) (i : ℕ) (a d : α) (h : i < l.length) :
    (l.set i a).getD i d = a := by
  simp [List.getD, List.getElem?_set, h]

theorem getD_set_other {α : Type} (l : List α) (i q : ℕ) (a d : α) (hne : i ≠ q) :
    (l.set i a).getD q d = l.getD q d := by
  simp [List.getD, List.getElem?_set, hne]

theorem swapL_getD_left (l : List ℤ) (i j : ℕ) (hi : i < l.length) (hj : j < l.length) :
    (swapL l i j).getD i 0 = l.getD j 0 := by
  by_cases hij : i = j
  · subst hij
    rw [swapL, List.set_set, getD_set_same _ _ _ _ hi]
  · rw [swapL, getD_set_other _ _ _ _ _ (fun h => hij h.symm), getD_set_same _ _ _ _ hi]

theorem swapL_getD_right (l : List ℤ) (i j : ℕ) (hi : i < l.length) (hj : j < l.length) :
    (swapL l i j).getD j 0 = l.getD i 0 := by
  rw [swapL, getD_set_same]
  rwa [List.length_set]

theorem swapL_getD_other (l : List ℤ) (i j q : ℕ) (hqi : q ≠ i) (hqj : q ≠ j) :
    (swapL l i j).getD q 0 = l.getD q 0 := by
  rw [swapL, getD_set_other _ _ _ _ _ (fun h => hqj h.symm),
    getD_set_other _ _ _ _ _ (fun h => hqi h.symm)]

section Orbit

variable (p : ℕ → ℕ) (n : ℕ)

theorem orbitPt_zero (perm : List ℤ) (x0 : ℕ) : orbitPt perm x0 0 = x0 := rfl

theorem orbitPt_succ (perm : List ℤ) (x0 i : ℕ) :
    orbitPt perm x0 (i + 1) = pIdx perm (orbitPt perm x0 i) :=
  Function.iterate_succ_apply' _ _ _

theorem cwalk_exit (perm : List ℤ) (x0 fuel itprev : ℕ) (arr : List ℤ)
    (moved : List Bool) :
    cwalk perm x0 fuel itprev x0 arr moved = (arr, moved.set itprev true) := by
  rw [cwalk.eq_def]
  simp

theorem cwalk_continue (perm : List ℤ) (x0 f itprev itafter : ℕ) (arr : List ℤ)
    (moved : List Bool) (h : itafter ≠ x0) :
    cwalk perm x0 (f + 1) itprev itafter arr moved
      = cwalk perm x0 f itafter (pIdx perm itafter)
          (swapL arr itprev itafter) (moved.set itprev true) := by
  rw [cwalk.eq_def]
  simp [h]

theorem iter_lt (hp : ∀ i, i < n → p i < n) :
    ∀ (m a : ℕ), a < n → p^[m] a < n := by
  intro m
  induction m with
  | zero => intro a ha; simpa using ha
  | succ m ih =>
      intro a ha
      rw [Function.iterate_succ_apply']
      exact hp _ (ih a ha)

theorem iter_cancel (hp : ∀ i, i < n → p i < n)
    (hinj : ∀ i j, i < n → j < n → p i = p j → i = j) :
    ∀ (m a b : ℕ), a < n → b < n → p^[m] a = p^[m] b → a = b := by
  intro m
  induction m with
  | zero => intro a b _ _ h; simpa using h
  | succ m ih =>
      intro a b ha hb h
      rw [Function.iterate_succ_apply, Function.iterate_succ_apply] at h
      exact hinj a b ha hb (ih (p a) (p b) (hp a ha) (hp b hb) h)

theorem orbit_exists (hp : ∀ i, i < n → p i < n)
    (hinj : ∀ i j, i < n → j < n → p i = p j → i = j)
    (x0 : ℕ) (hx0 : x0 < n) :
    ∃ k, 1 ≤ k ∧ k ≤ n ∧ p^[k] x0 = x0 ∧
      ∀ i j, i < j → j < k → p^[i] x0 ≠ p^[j] x0 := by
  have hg : ¬ Function.Injective
      (fun i : Fin (n + 1) => (⟨p^[(i : ℕ)] x0, iter_lt p n hp i x0 hx0⟩ : Fin n)) := by
    intro hinj'
    have hcard := Fintype.card_le_of_injective _ hinj'
    simp at hcard
  rw [Function.not_injective_iff] at hg
  obtain ⟨i, j, hij, hne⟩ := hg
  have hvals : p^[(i : ℕ)] x0 = p^[(j : ℕ)] x0 := by
    simpa using congrArg Fin.val hij
  -- reduce to i < j
  have hmain : ∃ a b : ℕ, a < b ∧ b ≤ n ∧ p^[a] x0 = p^[b] x0 := by
    rcases lt_trichotomy (i : ℕ) (j : ℕ) with h | h | h
    · exact ⟨i, j, h, Nat.lt_succ_iff.1 j.isLt, hvals⟩
    · exact absurd (Fin.ext h) hne
    · exact ⟨j, i, h, Nat.lt_succ_iff.1 i.isLt, hvals.symm⟩
  obtain ⟨a, b, hab, hbn, heq⟩ := hmain
  have hret : p^[b - a] x0 = x0 := by
    have : p^[a] (p^[b - a] x0) = p^[a] x0 := by
      rw [← Function.iterate_add_apply]
      rw [show a + (b - a) = b by omega]
      exact heq.symm
    exact iter_cancel p n hp hinj a _ _ (iter_lt p n hp _ _ hx0) hx0 this
  have hQ : ∃ m, 0 < m ∧ p^[m] x0 = x0 := ⟨b - a, by omega, hret⟩
  classical
  let k := Nat.find hQ
  have hkspec : 0 < k ∧ p^[k] x0 = x0 := Nat.find_spec hQ
  have hkmin : ∀ m, m < k → ¬ (0 < m ∧ p^[m] x0 = x0) := fun m hm => Nat.find_min hQ hm
  refine ⟨k, hkspec.1, ?_, hkspec.2, ?_⟩
  · have : k ≤ b - a := Nat.find_min' hQ ⟨by omega, hret⟩
    omega
  · intro i' j' hij' hj' heq'
    have hret' : p^[j' - i'] x0 = x0 := by
      have : p^[i'] (p^[j' - i'] x0) = p^[i'] x0 := by
        rw [← Function.iterate_add_apply]
        rw [show i' + (j' - i') = j' by omega]
        exact heq'.symm
      exact iter_cancel p n hp hinj i' _ _ (iter_lt p n hp _ _ hx0) hx0 this
    exact hkmin (j' - i') (by omega) ⟨by omega, hret'⟩

end Orbit

theorem cwalk_steps (perm : List ℤ) (n x0 k : ℕ)
    (hk1 : 1 ≤ k) (hkx : orbitPt perm x0 k = x0)
    (hdist : ∀ i j, i < j → j < k → orbitPt perm x0 i ≠ orbitPt perm x0 j)
    (holt : ∀ i, orbitPt perm x0 i < n) :
    ∀ (m fuel : ℕ) (arr : List ℤ) (moved : List Bool),
      m + 1 ≤ k → m ≤ fuel → arr.length = n → moved.length = n →
      ∃ arr' moved',
        cwalk perm x0 fuel (orbitPt perm x0 (k - 1 - m)) (orbitPt perm x0 (k - m)) arr moved
          = (arr', moved')
        ∧ arr'.length = n ∧ moved'.length = n ∧ arr'.Perm arr
        ∧ (∀ i, k - 1 - m ≤ i → i + 1 ≤ k - 1 →
            arr'.getD (orbitPt perm x0 i) 0 = arr.getD (orbitPt perm x0 (i + 1)) 0)
        ∧ arr'.getD (orbitPt perm x0 (k - 1)) 0 = arr.getD (orbitPt perm x0 (k - 1 - m)) 0
        ∧ (∀ q, (∀ i, k - 1 - m ≤ i → i ≤ k - 1 → q ≠ orbitPt perm x0 i) →
            arr'.getD q 0 = arr.getD q 0)
        ∧ (∀ i, k - 1 - m ≤ i → i ≤ k - 1 → moved'.getD (orbitPt perm x0 i) false = true)
        ∧ (∀ q, (∀ i, k - 1 - m ≤ i → i ≤ k - 1 → q ≠ orbitPt perm x0 i) →
            moved'.getD q false = moved.getD q false) := by
  intro m
  induction m with
  | zero =>
      intro fuel arr moved h1 h2 hla hlm
      simp only [Nat.sub_zero]
      refine ⟨arr, moved.set (orbitPt perm x0 (k - 1)) true, ?_, hla,
        by rw [List.length_set]; exact hlm, List.Perm.refl arr, ?_, rfl, ?_, ?_, ?_⟩
      · rw [hkx, cwalk_exit]
      · intro i hi1 hi2
        omega
      · intro q hq
        rfl
      · intro i hi1 hi2
        have hi : i = k - 1 := by omega
        subst hi
        exact getD_set_same _ _ _ _ (by rw [hlm]; exact holt _)
      · intro q hq
        exact getD_set_other _ _ _ _ _ (fun h => (hq (k - 1) (by omega) (by omega)) h.symm)
  | succ m ih =>
      intro fuel arr moved h1 h2 hla hlm
      rcases fuel with _ | f
      · omega
      rw [show k - 1 - (m + 1) = k - 2 - m from by omega,
        show k - (m + 1) = k - 1 - m from by omega]
      have hne : orbitPt perm x0 (k - 1 - m) ≠ x0 := by
        have h0 : (0 : ℕ) < k - 1 - m := by omega
        have := hdist 0 (k - 1 - m) h0 (by omega)
        rw [orbitPt_zero] at this
        exact fun h => this h.symm
      have hstep : pIdx perm (orbitPt perm x0 (k - 1 - m)) = orbitPt perm x0 (k - m) := by
        rw [← orbitPt_succ]
        congr 1
        omega
      obtain ⟨arr', moved', heq, hl1, hl2, hperm, F1, F2, F3, F4, F5⟩ :=
        ih f (swapL arr (orbitPt perm x0 (k - 2 - m)) (orbitPt perm x0 (k - 1 - m)))
          (moved.set (orbitPt perm x0 (k - 2 - m)) true)
          (by omega) (by omega) (by rw [swapL_length]; exact hla)
          (by rw [List.length_set]; exact hlm)
      have hba : ∀ i, orbitPt perm x0 i < arr.length := by
        intro i
        rw [hla]
        exact holt i
      refine ⟨arr', moved', ?_, hl1, hl2, ?_, ?_, ?_, ?_, ?_, ?_⟩
      · rw [cwalk_continue _ _ _ _ _ _ _ hne, hstep]
        exact heq
      · exact hperm.trans (swapL_perm arr _ _ (hba _) (hba _))
      · intro i hi1 hi2
        rcases Nat.eq_or_lt_of_le hi1 with hieq | hilt
        · rw [← hieq]
          have huntouched : ∀ i', k - 1 - m ≤ i' → i' ≤ k - 1 →
              orbitPt perm x0 (k - 2 - m) ≠ orbitPt perm x0 i' :=
            fun i' h1' h2' => hdist (k - 2 - m) i' (by omega) (by omega)
          rw [F3 _ huntouched]
          rw [swapL_getD_left _ _ _ (hba _) (hba _)]
          rw [show k - 2 - m + 1 = k - 1 - m from by omega]
        · have hge : k - 1 - m ≤ i := by omega
          rw [F1 i hge hi2]
          apply swapL_getD_other
          · exact fun h => hdist (k - 2 - m) (i + 1) (by omega) (by omega) h.symm
          · exact fun h => hdist (k - 1 - m) (i + 1) (by omega) (by omega) h.symm
      · rw [F2]
        exact swapL_getD_right _ _ _ (hba _) (hba _)
      · intro q hq
        rw [F3 _ (fun i' h1' h2' => hq i' (by omega) h2')]
        apply swapL_getD_other
        · exact hq (k - 2 - m) (by omega) (by omega)
        · exact hq (k - 1 - m) (by omega) (by omega)
      · intro i hi1 hi2
        rcases Nat.eq_or_lt_of_le hi1 with hieq | hilt
        · rw [← hieq]
          rw [F5 _ (fun i' h1' h2' => hdist (k - 2 - m) i' (by omega) (by omega))]
          exact getD_set_same _ _ _ _ (by rw [hlm]; exact holt _)
        · exact F4 i (by omega) hi2
      · intro q hq
        rw [F5 _ (fun i' h1' h2' => hq i' (by omega) h2')]
        exact getD_set_other _ _ _ _ _
          (fun h => (hq (k - 2 - m) (by omega) (by omega)) h.symm)

theorem applyPermLoop_correct (perm : List ℤ) (n : ℕ) (l : List ℤ)
    (hp : ∀ i, i < n → pIdx perm i < n)
    (hinj : ∀ i j, i < n → j < n → pIdx perm i = pIdx perm j → i = j) :
    ∀ (xs : List ℕ) (arr : List ℤ) (moved : List Bool),
      (∀ x ∈ xs, x < n) →
      arr.length = n → moved.length = n →
      (∀ q, q < n → q ∉ xs → moved.getD q false = true) →
      (∀ q, q < n → moved.getD q false = true →
        arr.getD q 0 = l.getD (pIdx perm q) 0 ∧ moved.getD (pIdx perm q) false = true) →
      (∀ q, q < n → moved.getD q false = false → arr.getD q 0 = l.getD q 0) →
      arr.Perm l →
      ((applyPermLoop perm n xs arr moved).1).length = n
      ∧ (∀ q, q < n →
          (applyPermLoop perm n xs arr moved).1.getD q 0 = l.getD (pIdx perm q) 0)
      ∧ ((applyPermLoop perm n xs arr moved).1).Perm l := by
  intro xs
  induction xs with
  | nil =>
      intro arr moved hxs hla hlm hproc htrue hfalse hperm
      simp only [applyPermLoop]
      refine ⟨hla, ?_, hperm⟩
      intro q hq
      exact (htrue q hq (hproc q hq (by simp))).1
  | cons x xs ih =>
      intro arr moved hxs hla hlm hproc htrue hfalse hperm
      have hx : x < n := hxs x (by simp)
      by_cases hmx : moved.getD x false = true
      · rw [show applyPermLoop perm n (x :: xs) arr moved
            = applyPermLoop perm n xs arr moved from by
          simp only [applyPermLoop, hmx, if_true]]
        refine ih arr moved (fun y hy => hxs y (by simp [hy])) hla hlm ?_ htrue hfalse hperm
        intro q hq hqxs
        by_cases hqx : q = x
        · rw [hqx]; exact hmx
        · exact hproc q hq (by simp [hqx, hqxs])
      · have hmx' : moved.getD x false = false := by
          revert hmx
          cases moved.getD x false <;> simp
        obtain ⟨k, hk1, hkn, hkx, hdist⟩ := orbit_exists (pIdx perm) n hp hinj x hx
        have hkx' : orbitPt perm x k = x := hkx
        have holt : ∀ i, orbitPt perm x i < n := fun i => iter_lt (pIdx perm) n hp i x hx
        obtain ⟨arr', moved', heq0, hl1, hl2, hpermc, F1, F2, F3, F4, F5⟩ :=
          cwalk_steps perm n x k hk1 hkx hdist holt (k - 1) n arr moved
            (by omega) (by omega) hla hlm
        rw [show k - 1 - (k - 1) = 0 from by omega, show k - (k - 1) = 1 from by omega] at heq0
        have heq : cwalk perm x n x (pIdx perm x) arr moved = (arr', moved') := heq0
        -- F-facts with the normalized lower bound 0
        rw [show k - 1 - (k - 1) = 0 from by omega] at F1 F2 F3 F4 F5
        -- closure: a moved point stays moved along iterates of the permutation
        have hclosure : ∀ t q, q < n → moved.getD q false = true →
            moved.getD ((pIdx perm)^[t] q) false = true := by
          intro t
          induction t with
          | zero => intro q hq h; simpa using h
          | succ t iht =>
              intro q hq h
              rw [Function.iterate_succ_apply']
              exact (htrue _ (iter_lt (pIdx perm) n hp t q hq) (iht q hq h)).2
        have hcycle_unmoved : ∀ i, i < k → moved.getD (orbitPt perm x i) false = false := by
          intro i hik
          by_contra hcon
          have hone : moved.getD (orbitPt perm x i) false = true := by
            revert hcon
            cases moved.getD (orbitPt perm x i) false <;> simp
          have : moved.getD ((pIdx perm)^[k - i] (orbitPt perm x i)) false = true :=
            hclosure (k - i) _ (holt i) hone
          rw [show (pIdx perm)^[k - i] (orbitPt perm x i) = orbitPt perm x k from by
            rw [orbitPt, orbitPt, ← Function.iterate_add_apply]
            congr 1
            omega] at this
          rw [hkx'] at this
          rw [hmx'] at this
          exact Bool.false_ne_true this
        -- value of arr' on cycle points
        have harr_cycle : ∀ i, i < k →
            arr'.getD (orbitPt perm x i) 0 = l.getD (pIdx perm (orbitPt perm x i)) 0 := by
          intro i hik
          rcases Nat.lt_or_ge i (k - 1) with hik1 | hik1
          · rw [F1 i (by omega) (by omega)]
            rw [← orbitPt_succ]
            exact hfalse _ (holt (i + 1)) (hcycle_unmoved (i + 1) (by omega))
          · have hie : i = k - 1 := by omega
            subst hie
            rw [F2, orbitPt_zero]
            have hpk : pIdx perm (orbitPt perm x (k - 1)) = x := by
              rw [← orbitPt_succ, show k - 1 + 1 = k from by omega]
              exact hkx'
            rw [hpk]
            exact hfalse x hx hmx'
        -- moved' is true on cycle points and p maps cycle to cycle
        have hmoved_cycle : ∀ i, i < k → moved'.getD (orbitPt perm x i) false = true :=
          fun i hik => F4 i (by omega) (by omega)
        have hp_cycle : ∀ i, i < k → ∃ j, j < k ∧
            pIdx perm (orbitPt perm x i) = orbitPt perm x j := by
          intro i hik
          rcases Nat.lt_or_ge i (k - 1) with hik1 | hik1
          · exact ⟨i + 1, by omega, (orbitPt_succ perm x i).symm⟩
          · have hie : i = k - 1 := by omega
            subst hie
            refine ⟨0, by omega, ?_⟩
            rw [orbitPt_zero, ← orbitPt_succ, show k - 1 + 1 = k from by omega]
            exact hkx'
        -- outside the cycle nothing changed
        have hoff_arr : ∀ q, (∀ i, i < k → q ≠ orbitPt perm x i) →
            arr'.getD q 0 = arr.getD q 0 :=
          fun q hq => F3 q (fun i h1 h2 => hq i (by omega))
        have hoff_moved : ∀ q, (∀ i, i < k → q ≠ orbitPt perm x i) →
            moved'.getD q false = moved.getD q false :=
          fun q hq => F5 q (fun i h1 h2 => hq i (by omega))
        -- assemble invariants for the recursive call
        rw [show applyPermLoop perm n (x :: xs) arr moved
            = applyPermLoop perm n xs arr' moved' from by
          simp only [applyPermLoop, hmx', Bool.false_eq_true, if_false, heq]]
        refine ih arr' moved' (fun y hy => hxs y (by simp [hy])) hl1 hl2 ?_ ?_ ?_
          (hpermc.trans hperm)
        · -- processed prefix all moved
          intro q hq hqxs
          by_cases hqc : ∃ i, i < k ∧ q = orbitPt perm x i
          · obtain ⟨i, hik, rfl⟩ := hqc
            exact hmoved_cycle i hik
          · push_neg at hqc
            have hne : ∀ i, i < k → q ≠ orbitPt perm x i := fun i h => hqc i h
            rw [hoff_moved q hne]
            apply hproc q hq
            intro hmem
            rcases List.mem_cons.1 hmem with h | h
            · exact hne 0 (by omega) (by rw [h, orbitPt_zero])
            · exact hqxs h
        · -- moved points hold the target value and closure
          intro q hq hmq
          by_cases hqc : ∃ i, i < k ∧ q = orbitPt perm x i
          · obtain ⟨i, hik, rfl⟩ := hqc
            refine ⟨harr_cycle i hik, ?_⟩
            obtain ⟨j, hjk, hpj⟩ := hp_cycle i hik
            rw [hpj]
            exact hmoved_cycle j hjk
          · push_neg at hqc
            have hne : ∀ i, i < k → q ≠ orbitPt perm x i := fun i h => hqc i h
            rw [hoff_moved q hne] at hmq
            obtain ⟨hval, hmove⟩ := htrue q hq hmq
            refine ⟨by rw [hoff_arr q hne]; exact hval, ?_⟩
            have hpq_off : ∀ i, i < k → pIdx perm q ≠ orbitPt perm x i := by
              intro i hik hcon
              have : moved.getD (orbitPt perm x i) false = false := hcycle_unmoved i hik
              rw [← hcon] at this
              rw [hmove] at this
              exact Bool.true_eq_false.mp this
            rw [hoff_moved _ hpq_off]
            exact hmove
        · -- unmoved points still hold the original value
          intro q hq hmq
          by_cases hqc : ∃ i, i < k ∧ q = orbitPt perm x i
          · obtain ⟨i, hik, rfl⟩ := hqc
            rw [hmoved_cycle i hik] at hmq
            exact absurd hmq (by simp)
          · push_neg at hqc
            have hne : ∀ i, i < k → q ≠ orbitPt perm x i := fun i h => hqc i h
            rw [hoff_moved q hne] at hmq
            rw [hoff_arr q hne]
            exact hfalse q hq hmq

theorem getD_replicate : ∀ (n q : ℕ), (List.replicate n false).getD q false = false := by
  intro n
  induction n with
  | zero => intro q; simp [List.getD]
  | succ n ih =>
      intro q
      cases q with
      | zero => simp [List.replicate_succ]
      | succ q => simpa [List.replicate_succ] using ih q

theorem perm_entry_facts (perm : List ℤ) (n : ℕ)
    (hperm : perm.Perm ((List.range n).map Int.ofNat)) :
    (∀ i, i < n → pIdx perm i < n)
    ∧ (∀ i j, i < n → j < n → pIdx perm i = pIdx perm j → i = j) := by
  have hplen : perm.length = n := by
    have := hperm.length_eq
    simpa using this
  have hentry : ∀ i, i < n → ∃ j, j < n ∧ perm.getD i 0 = Int.ofNat j := by
    intro i hi
    have hi' : i < perm.length := by omega
    have hmem : perm.getD i 0 ∈ perm := by
      rw [List.getD_eq_getElem _ _ hi']
      exact List.getElem_mem hi'
    have hmem2 : perm.getD i 0 ∈ (List.range n).map Int.ofNat := hperm.mem_iff.1 hmem
    obtain ⟨j, hj, hval⟩ := List.mem_map.1 hmem2
    exact ⟨j, List.mem_range.1 hj, hval.symm⟩
  have hnodup : perm.Nodup := by
    rw [hperm.nodup_iff]
    exact (List.nodup_range n).map (fun a b h => by simpa using h)
  constructor
  · intro i hi
    obtain ⟨j, hj, hval⟩ := hentry i hi
    rw [pIdx, hval]
    simpa using hj
  · intro i j hi hj hpij
    obtain ⟨a, ha, hva⟩ := hentry i hi
    obtain ⟨b, hb, hvb⟩ := hentry j hj
    have hab : a = b := by
      rw [pIdx, pIdx, hva, hvb] at hpij
      simpa using hpij
    have hval : perm.getD i 0 = perm.getD j 0 := by rw [hva, hvb, hab]
    rw [List.getD_eq_getElem _ _ (by omega : i < perm.length),
      List.getD_eq_getElem _ _ (by omega : j < perm.length)] at hval
    exact (List.Nodup.getElem_inj_iff hnodup).1 hval

theorem applyPerm_spec (perm l : List ℤ) (n : ℕ) (hn : l.length = n)
    (hperm : perm.Perm ((List.range n).map Int.ofNat)) :
    (applyPerm perm l).length = n
    ∧ (∀ x, x < n → (applyPerm perm l).getD x 0 = l.getD (pIdx perm x) 0)
    ∧ (applyPerm perm l).Perm l := by
  obtain ⟨hp, hinj⟩ := perm_entry_facts perm n hperm
  have hmain := applyPermLoop_correct perm n l hp hinj (List.range n) l
    (List.replicate n false)
    (fun x hx => List.mem_range.1 hx)
    hn (by simp)
    (fun q hq hq' => absurd (List.mem_range.2 hq) hq')
    (fun q hq hmq => absurd hmq (by rw [getD_replicate]; simp))
    (fun q hq _ => rfl)
    (List.Perm.refl l)
  rw [applyPerm, hn]
  exact hmain

theorem generatePermutation_perm_aux {σ : Type} (M : PRNGModel σ) (hM : UniformIntSpec M)
    (size : ℤ) (st : σ) (perm : List ℤ) (st' : σ) (hpos : 0 < size)
    (h : generatePermutation M size st = .ok (perm, st')) :
    perm.Perm ((List.range size.toNat).map Int.ofNat) := by
  have hnot : ¬ size ≤ 0 := not_le.2 hpos
  simp only [generatePermutation, hnot, if_false] at h
  injection h with h'
  have hperm := fyLoop_perm M hM (List.range size.toNat).reverse
    ((List.range size.toNat).map Int.ofNat) st
    (fun i hi => by
      simp only [List.mem_reverse, List.mem_range] at hi
      rw [List.length_map, List.length_range]
      exact hi)
  rw [h'] at hperm
  exact hperm

theorem getD_take' (l : List ℤ) (n i : ℕ) (h : i < n) :
    (l.take n).getD i 0 = l.getD i 0 := by
  simp [List.getD_eq_getElem?_getD, List.getElem?_take, h]

theorem getD_drop' (l : List ℤ) (n i : ℕ) :
    (l.drop n).getD i 0 = l.getD (n + i) 0 := by
  simp [List.getD_eq_getElem?_getD, List.getElem?_drop]

theorem splice_id (arr : List ℤ) (b e : ℕ) (hbe : b ≤ e) :
    arr.take b ++ ((arr.drop b).take (e - b)) ++ arr.drop e = arr := by
  rw [← List.drop_take e b arr]
  rw [show arr.take b = (arr.take e).take b from by
    rw [List.take_take, Nat.min_eq_left hbe]]
  rw [List.take_append_drop, List.take_append_drop]

theorem eq_singleton_getD (l : List ℤ) (h : l.length = 1) : l = [l.getD 0 0] := by
  cases l with
  | nil => simp at h
  | cons a t =>
      cases t with
      | nil => rfl
      | cons b t' => simp at h

theorem shuffle_main {σ : Type} (M : PRNGModel σ) (hM : UniformIntSpec M)
    (arr : List ℤ) (b e : ℕ) (st : σ) (arr' : List ℤ) (st' : σ)
    (hbe : b < e) (hlen : e ≤ arr.length)
    (h : shuffle M arr b e st = .ok (arr', st')) :
    ∃ perm stp, generatePermutation M ((e : ℤ) - (b : ℤ)) st = .ok (perm, stp)
      ∧ st' = stp
      ∧ arr'.length = arr.length
      ∧ (∀ i, i < b → arr'.getD i 0 = arr.getD i 0)
      ∧ (∀ i, e ≤ i → arr'.getD i 0 = arr.getD i 0)
      ∧ (∀ x, x < e - b → arr'.getD (b + x) 0 = arr.getD (b + pIdx perm x) 0)
      ∧ ((arr'.drop b).take (e - b)).Perm ((arr.drop b).take (e - b)) := by
  have hszpos : (0 : ℤ) < (e : ℤ) - (b : ℤ) := by omega
  rcases hfy : fyLoop M (List.range ((e : ℤ) - (b : ℤ)).toNat).reverse
      ((List.range ((e : ℤ) - (b : ℤ)).toNat).map Int.ofNat) st with ⟨permv, stp⟩
  have hgp : generatePermutation M ((e : ℤ) - (b : ℤ)) st = .ok (permv, stp) := by
    rw [generatePermutation, if_neg (not_le.2 hszpos), hfy]
  rw [shuffle, if_neg (by omega), if_neg (by omega), hgp] at h
  injection h with h1
  injection h1 with harr hst
  have hnsz : ((e : ℤ) - (b : ℤ)).toNat = e - b := by omega
  have hpermv : permv.Perm ((List.range (e - b)).map Int.ofNat) := by
    rw [← hnsz]
    exact generatePermutation_perm_aux M hM _ st permv stp hszpos hgp
  obtain ⟨hp, hinjp⟩ := perm_entry_facts permv (e - b) hpermv
  have hble : b ≤ arr.length := by omega
  have hsub_len : ((arr.drop b).take (e - b)).length = e - b := by
    rw [List.length_take, List.length_drop]
    omega
  obtain ⟨hcl, hcget, hcperm⟩ :=
    applyPerm_spec permv ((arr.drop b).take (e - b)) (e - b) hsub_len hpermv
  set core := applyPerm permv ((arr.drop b).take (e - b)) with hcore
  have htb : (arr.take b).length = b := by
    rw [List.length_take]
    omega
  have htbc : (arr.take b ++ core).length = e := by
    rw [List.length_append, htb, hcl]
    omega
  have harr' : arr' = (arr.take b ++ core) ++ arr.drop e := harr.symm
  refine ⟨permv, stp, hgp, hst.symm, ?_, ?_, ?_, ?_, ?_⟩
  · rw [harr', List.length_append, List.length_append, htb, hcl, List.length_drop]
    omega
  · intro i hi
    rw [harr', List.getD_append _ _ _ _ (by rw [htbc]; omega),
      List.getD_append _ _ _ _ (by rw [htb]; omega), getD_take' _ _ _ hi]
  · intro i hi
    rw [harr', List.getD_append_right _ _ _ _ (by rw [htbc]; omega), htbc, getD_drop',
      show e + (i - e) = i from by omega]
  · intro x hx
    rw [harr', List.getD_append _ _ _ _ (by rw [htbc]; omega),
      List.getD_append_right _ _ _ _ (by rw [htb]; omega), htb,
      show b + x - b = x from by omega, hcget x hx, getD_take' _ _ _ (hp x hx), getD_drop']
  · have hdrop : arr'.drop b = core ++ arr.drop e := by
      rw [harr', List.append_assoc, List.drop_left' htb]
    rw [hdrop, List.take_left' hcl]
    exact hcperm

/-- C8: `shuffle(range)` fails when the range is inverted (end precedes
begin), no-ops on a range of size 0 or 1, and otherwise reorders the range
in place by applying the index permutation produced by
`generatePermutation`: after the call the element at each position `x` of
the range is the pre-call element at position `perm[x]`, the elements
outside the range are untouched, and the multiset of elements in the range
is preserved. -/
theorem shuffle_spec {σ : Type} (M : PRNGModel σ) (hM : UniformIntSpec M) :
    (∀ (arr : List ℤ) (b e : ℕ) (st : σ), e < b →
        shuffle M arr b e st = .error "End iterator is at before begin iterator")
    ∧ (∀ (arr : List ℤ) (b : ℕ) (st : σ), shuffle M arr b b st = .ok (arr, st))
    ∧ (∀ (arr : List ℤ) (b : ℕ) (st : σ), b < arr.length →
        ∃ st', shuffle M arr b (b + 1) st = .ok (arr, st'))
    ∧ (∀ (arr : List ℤ) (b e : ℕ) (st : σ) (arr' : List ℤ) (st' : σ),
        b < e → e ≤ arr.length → shuffle M arr b e st = .ok (arr', st') →
        ∃ perm stp, generatePermutation M ((e : ℤ) - (b : ℤ)) st = .ok (perm, stp)
          ∧ st' = stp
          ∧ arr'.length = arr.length
          ∧ (∀ i, i < b → arr'.getD i 0 = arr.getD i 0)
          ∧ (∀ i, e ≤ i → arr'.getD i 0 = arr.getD i 0)
          ∧ (∀ x, x < e - b →
              arr'.getD (b + x) 0 = arr.getD (b + pIdx perm x) 0)
          ∧ ((arr'.drop b).take (e - b)).Perm ((arr.drop b).take (e - b))) := by
  refine ⟨?_, ?_, ?_, fun arr b e st arr' st' h1 h2 h3 =>
    shuffle_main M hM arr b e st arr' st' h1 h2 h3⟩
  · intro arr b e st h
    rw [shuffle, if_pos (by omega : ((e : ℤ) - (b : ℤ)) < 0)]
  · intro arr b st
    rw [shuffle, if_neg (by omega), if_pos (by omega)]
  · intro arr b st hb
    have hble : b + 1 ≤ arr.length := by omega
    rcases hfy : fyLoop M (List.range (((b + 1 : ℕ) : ℤ) - (b : ℤ)).toNat).reverse
        ((List.range (((b + 1 : ℕ) : ℤ) - (b : ℤ)).toNat).map Int.ofNat) st
      with ⟨permv, stp⟩
    have hgp : generatePermutation M (((b + 1 : ℕ) : ℤ) - (b : ℤ)) st
        = .ok (permv, stp) := by
      rw [generatePermutation, if_neg (by push_cast; omega), hfy]
    have hsh : shuffle M arr b (b + 1) st
        = .ok (arr.take b ++ applyPerm permv ((arr.drop b).take (b + 1 - b))
            ++ arr.drop (b + 1), stp) := by
      rw [shuffle, if_neg (by push_cast; omega), if_neg (by push_cast; omega), hgp]
    have hpermv : permv.Perm ((List.range ((b + 1) - b)).map Int.ofNat) := by
      rw [show ((b + 1) - b : ℕ) = (((b + 1 : ℕ) : ℤ) - (b : ℤ)).toNat from by omega]
      exact generatePermutation_perm_aux M hM _ st permv stp (by push_cast; omega) hgp
    have hsub_len : ((arr.drop b).take (b + 1 - b)).length = (b + 1) - b := by
      rw [List.length_take, List.length_drop]
      omega
    obtain ⟨hcl, hcget, hcperm⟩ :=
      applyPerm_spec permv ((arr.drop b).take (b + 1 - b)) ((b + 1) - b) hsub_len hpermv
    have hcl1 : (applyPerm permv ((arr.drop b).take (b + 1 - b))).length = 1 := by omega
    have hsl1 : ((arr.drop b).take (b + 1 - b)).length = 1 := by omega
    have hp0 : pIdx permv 0 = 0 := by
      obtain ⟨hp, _⟩ := perm_entry_facts permv ((b + 1) - b) hpermv
      have := hp 0 (by omega)
      omega
    have hcore_eq : applyPerm permv ((arr.drop b).take (b + 1 - b))
        = (arr.drop b).take (b + 1 - b) := by
      have h2 : (arr.drop b).take (b + 1 - b)
          = [((arr.drop b).take (b + 1 - b)).getD 0 0] := eq_singleton_getD _ hsl1
      rw [eq_singleton_getD _ hcl1, hcget 0 (by omega), hp0]
      exact h2.symm
    refine ⟨stp, ?_⟩
    rw [hsh, hcore_eq, splice_id arr b (b + 1) (by omega)]

/-- Witness for C8: a concrete size-1 shuffle with a concrete engine model
leaves the contents unchanged. -/
theorem shuffle_spec_witness :
    ∃ st', shuffle demoPRNG [7, 8] 0 1 0 = .ok ([7, 8], st') :=
  (shuffle_spec demoPRNG (fun l _ s h => ⟨le_refl l, h⟩)).2.2.1 [7, 8] 0 0 (by norm_num)

end TCH
